import Mathlib

/-!
Verification of the Stratum V2 mining hash-space allocator
(`protocols/v2/subprotocols/mining/src/lib.rs`): the `Target` comparator,
the `Extranonce` counter, the `ExtendedExtranonce` range allocator and the
big-endian increment primitive, shallowly embedded over `Nat`-valued bytes.
-/

namespace Sv2

/-- Bytes are modelled as natural numbers; a well-formed byte list has every
entry below 256 (a `u8` value). -/
def wfBytes (bs : List Nat) : Prop := ∀ b ∈ bs, b < 256

instance (bs : List Nat) : Decidable (wfBytes bs) :=
  inferInstanceAs (Decidable (∀ b ∈ bs, b < 256))

/-- Little-endian value of a byte list (`uN::from_le_bytes`): the first byte is
least significant. -/
def leVal : List Nat → Nat
  | [] => 0
  | b :: rest => b + 256 * leVal rest

/-- Big-endian value of a byte list (`uN::from_be_bytes`): the first byte is
most significant. -/
def beVal (bs : List Nat) : Nat := leVal bs.reverse

/-- Little-endian encoding of a natural number on a fixed number of bytes
(`uN::to_le_bytes`). -/
def toLeBytes : Nat → Nat → List Nat
  | 0, _ => []
  | len + 1, n => n % 256 :: toLeBytes len (n / 256)

/-- Big-endian encoding on a fixed number of bytes (`uN::to_be_bytes`). -/
def toBeBytes (len n : Nat) : List Nat := (toLeBytes len n).reverse

/-- Core of `increment_bytes_be`, acting on the reversed (least-significant
first) byte list: the first byte below `0xFF` is incremented and the bytes
before it (all `0xFF`) are zeroed; if every byte is `0xFF` the increment
fails (`none`). -/
def incRev : List Nat → Option (List Nat)
  | [] => none
  | b :: rest =>
    if b = 255 then (incRev rest).map (fun r => 0 :: r)
    else some ((b + 1) :: rest)

/-- Rust `increment_bytes_be(bs: &mut [u8]) -> Result<(), ()>`: iterate the
bytes from the end; a byte below `0xFF` is incremented (success), a `0xFF`
byte becomes `0x00` and the scan continues; if all bytes were `0xFF` they are
all restored to `0xFF` and the call fails. The pair returned here is
(success flag, final buffer). -/
def increment_bytes_be (bs : List Nat) : Bool × List Nat :=
  match incRev bs.reverse with
  | some r => (true, r.reverse)
  | none => (false, List.replicate bs.length 255)

/-- Maximum value of a `u128`. -/
def u128MAX : Nat := 2 ^ 128 - 1

/-- Rust struct `Extranonce { head: u128, tail: u128 }`: a 256-bit big-endian
counter with `head` the more significant half. -/
structure Extranonce where
  head : Nat
  tail : Nat
deriving DecidableEq, Repr

/-- Full 256-bit value represented by an `Extranonce`. -/
def Extranonce.val (e : Extranonce) : Nat := e.head * 2 ^ 128 + e.tail

/-- Rust `Extranonce::next`: a (MAX, MAX) state panics (modelled as `none`);
a full `tail` advances `head` and resets `tail`; otherwise `tail` advances. -/
def Extranonce.next (e : Extranonce) : Option Extranonce :=
  if e.tail = u128MAX ∧ e.head = u128MAX then none
  else if e.tail = u128MAX then some ⟨e.head + 1, 0⟩
  else some ⟨e.head, e.tail + 1⟩

/-- Iterated `Extranonce.next`; `none` once any step panics. -/
def Extranonce.nextIter : Nat → Extranonce → Option Extranonce
  | 0, e => some e
  | n + 1, e =>
    match e.next with
    | none => none
    | some e2 => Extranonce.nextIter n e2

/-- Rust struct `Target { head: u128, tail: u128 }` with `head` the more
significant half of a 256-bit integer. -/
structure Target where
  head : Nat
  tail : Nat
deriving DecidableEq, Repr

/-- Full 256-bit value represented by a `Target`. -/
def Target.val (t : Target) : Nat := t.head * 2 ^ 128 + t.tail

/-- Rust `impl Ord for Target`: equal when both halves are equal, otherwise
compare `head`s when they differ, otherwise compare `tail`s. -/
def Target.cmp (a b : Target) : Ordering :=
  if a.tail = b.tail ∧ a.head = b.head then Ordering.eq
  else if a.head ≠ b.head then compare a.head b.head
  else compare a.tail b.tail

/-- Rust `impl From<[u8; 32]> for Target`: reverse the array, then read bytes
0..16 little-endian into `head` and bytes 16..32 little-endian into `tail`. -/
def targetOfBytes32 (a : List Nat) : Target :=
  let v := a.reverse
  ⟨leVal (v.take 16), leVal ((v.drop 16).take 16)⟩

/-- Rust `impl From<U256> for Target`: read bytes 0..16 little-endian into
`head` and bytes 16..32 little-endian into `tail` (no reversal). -/
def targetOfU256 (bs : List Nat) : Target :=
  ⟨leVal (bs.take 16), leVal ((bs.drop 16).take 16)⟩

/-- Rust `impl From<Target> for U256`: `head` as 16 little-endian bytes
followed by `tail` as 16 little-endian bytes. -/
def u256OfTarget (t : Target) : List Nat :=
  toLeBytes 16 t.head ++ toLeBytes 16 t.tail

/-- Rust `impl From<U256> for Extranonce`: `head` from bytes 0..16
little-endian, `tail` from bytes 16..32 little-endian. -/
def extranonceOfU256 (bs : List Nat) : Extranonce :=
  ⟨leVal (bs.take 16), leVal (bs.drop 16)⟩

/-- Rust `impl From<Extranonce> for U256`: `head` as 16 little-endian bytes
followed by `tail` as 16 little-endian bytes. -/
def u256OfExtranonce (e : Extranonce) : List Nat :=
  toLeBytes 16 e.head ++ toLeBytes 16 e.tail

/-- Rust `impl From<B032> for Extranonce`: `tail` from bytes 0..16
little-endian, `head` from bytes 16..32 little-endian (halves swapped). -/
def extranonceOfB032 (bs : List Nat) : Extranonce :=
  ⟨leVal (bs.drop 16), leVal (bs.take 16)⟩

/-- Rust `impl From<Extranonce> for B032`: `tail` as 16 little-endian bytes
followed by `head` as 16 little-endian bytes. -/
def b032OfExtranonce (e : Extranonce) : List Nat :=
  toLeBytes 16 e.tail ++ toLeBytes 16 e.head

/-- Rust struct `ExtendedExtranonce`: a 32-byte buffer and three ranges,
each a (start, stop) pair of indices. -/
structure ExtendedExtranonce where
  inner : List Nat
  range0 : Nat × Nat
  range1 : Nat × Nat
  range2 : Nat × Nat
deriving DecidableEq, Repr

/-- Validity of the range partition, as asserted by `ExtendedExtranonce::new`:
the three ranges are contiguous, start at 0 and stop at 32, and the buffer
holds 32 bytes. -/
def validPartition (x : ExtendedExtranonce) : Prop :=
  x.range0.1 = 0 ∧ x.range0.2 = x.range1.1 ∧ x.range1.2 = x.range2.1 ∧
  x.range2.2 = 32 ∧ x.range0.1 ≤ x.range0.2 ∧ x.range1.1 ≤ x.range1.2 ∧
  x.range2.1 ≤ x.range2.2 ∧ x.inner.length = 32

instance (x : ExtendedExtranonce) : Decidable (validPartition x) :=
  inferInstanceAs (Decidable (_ ∧ _ ∧ _ ∧ _ ∧ _ ∧ _ ∧ _ ∧ _))

/-- Byte slice `bs[s..e]` of a buffer, as in Rust slicing. -/
def slice (bs : List Nat) (s e : Nat) : List Nat := (bs.drop s).take (e - s)

/-- In-place `increment_bytes_be(&mut bs[s..e])`: the slice is incremented
(or restored to all `0xFF` on failure) and written back into the buffer. -/
def spliceIncrement (bs : List Nat) (s e : Nat) : Bool × List Nat :=
  ((increment_bytes_be (slice bs s e)).1,
    bs.take s ++ (increment_bytes_be (slice bs s e)).2 ++ bs.drop e)

/-- Rust `impl From<&mut ExtendedExtranonce> for Extranonce`: `head` is bytes
0..16 big-endian, `tail` is bytes 16..32 big-endian. -/
def extranonceOfInner (bs : List Nat) : Extranonce :=
  ⟨beVal (bs.take 16), beVal ((bs.drop 16).take 16)⟩

/-- Rust `ExtendedExtranonce::next_standard`: increment the bytes of
`range_2` as a big-endian counter; on success return the whole buffer as an
`Extranonce`, on overflow return `none`. The pair returned is
(state after the call, returned value). -/
def ExtendedExtranonce.next_standard (x : ExtendedExtranonce) :
    ExtendedExtranonce × Option Extranonce :=
  ({ x with inner := (spliceIncrement x.inner x.range2.1 x.range2.2).2 },
    if (spliceIncrement x.inner x.range2.1 x.range2.2).1 then
      some (extranonceOfInner (spliceIncrement x.inner x.range2.1 x.range2.2).2)
    else none)

/-- Rust `ExtendedExtranonce::next_extended`: fail when `required_len`
exceeds the width of `range_2`; otherwise increment the bytes of `range_1` as
a big-endian counter and return the whole buffer as an `Extranonce`
(`none` on overflow of `range_1`). -/
def ExtendedExtranonce.next_extended (x : ExtendedExtranonce) (required_len : Nat) :
    ExtendedExtranonce × Option Extranonce :=
  if required_len > x.range2.2 - x.range2.1 then (x, none)
  else
    ({ x with inner := (spliceIncrement x.inner x.range1.1 x.range1.2).2 },
      if (spliceIncrement x.inner x.range1.1 x.range1.2).1 then
        some (extranonceOfInner (spliceIncrement x.inner x.range1.1 x.range1.2).2)
      else none)

/-- Rust `ExtendedExtranonce::from_extranonce`: the buffer is `head` as 16
big-endian bytes followed by `tail` as 16 big-endian bytes. -/
def ExtendedExtranonce.from_extranonce (v : Extranonce) (r0 r1 r2 : Nat × Nat) :
    ExtendedExtranonce :=
  ⟨toBeBytes 16 v.head ++ toBeBytes 16 v.tail, r0, r1, r2⟩

/-- Rust `ExtendedExtranonce::from_upstream_extranonce`: build the buffer
from the upstream value and return `none` when any byte of
`inner[range_1.start .. range_2.end]` is nonzero. -/
def ExtendedExtranonce.from_upstream_extranonce (v : Extranonce) (r0 r1 r2 : Nat × Nat) :
    Option ExtendedExtranonce :=
  if (slice (ExtendedExtranonce.from_extranonce v r0 r1 r2).inner r1.1 r2.2).all
      (fun b => b == 0) then
    some (ExtendedExtranonce.from_extranonce v r0 r1 r2)
  else none

/-- State reached after one `next_standard` call (the returned value is
dropped). -/
def stdStep (x : ExtendedExtranonce) : ExtendedExtranonce :=
  x.next_standard.1

/-- State reached after `n` successive `next_standard` calls. -/
def stdState : ExtendedExtranonce → Nat → ExtendedExtranonce
  | x, 0 => x
  | x, n + 1 => stdState (stdStep x) n

/-- Value returned by the `(n+1)`-th `next_standard` call on an allocator
started at `x`. -/
def stdOut (x : ExtendedExtranonce) (n : Nat) : Option Extranonce :=
  (stdState x n).next_standard.2

/-- Integer actually represented by a wire 32-byte array once it has passed
through `impl From<[u8; 32]> for Target` and `impl Ord for Target`: each
16-byte half is read big-endian, and the half at bytes 16..32 is the more
significant. -/
def beHalvesVal (a : List Nat) : Nat :=
  beVal (a.drop 16) * 2 ^ 128 + beVal (a.take 16)

theorem leVal_append (xs ys : List Nat) :
    leVal (xs ++ ys) = leVal xs + 256 ^ xs.length * leVal ys := by
  induction xs with
  | nil => simp [leVal]
  | cons b rest ih =>
    have hstep : leVal ((b :: rest) ++ ys) = b + 256 * leVal (rest ++ ys) := rfl
    have hcons : leVal (b :: rest) = b + 256 * leVal rest := rfl
    rw [hstep, ih, hcons, List.length_cons]
    ring

theorem beVal_append (xs ys : List Nat) :
    beVal (xs ++ ys) = beVal xs * 256 ^ ys.length + beVal ys := by
  simp only [beVal, List.reverse_append, leVal_append, List.length_reverse]
  ring

theorem leVal_lt (bs : List Nat) (h : wfBytes bs) : leVal bs < 256 ^ bs.length := by
  induction bs with
  | nil => simp [leVal]
  | cons b rest ih =>
    have hb : b < 256 := h b (by simp)
    have hr : leVal rest < 256 ^ rest.length := ih (fun x hx => h x (by simp [hx]))
    have : leVal rest + 1 ≤ 256 ^ rest.length := hr
    calc b + 256 * leVal rest < 256 + 256 * leVal rest := by omega
    _ = 256 * (leVal rest + 1) := by ring
    _ ≤ 256 * 256 ^ rest.length := by
        exact Nat.mul_le_mul_left _ this
    _ = 256 ^ (rest.length + 1) := by ring
    _ = 256 ^ (b :: rest).length := by simp

theorem beVal_lt (bs : List Nat) (h : wfBytes bs) : beVal bs < 256 ^ bs.length := by
  have := leVal_lt bs.reverse (fun b hb => h b (List.mem_reverse.mp hb))
  simpa [beVal] using this

theorem toLeBytes_length (len n : Nat) : (toLeBytes len n).length = len := by
  induction len generalizing n with
  | zero => simp [toLeBytes]
  | succ k ih => simp [toLeBytes, ih]

theorem toBeBytes_length (len n : Nat) : (toBeBytes len n).length = len := by
  simp [toBeBytes, toLeBytes_length]

theorem toLeBytes_wf (len n : Nat) : wfBytes (toLeBytes len n) := by
  induction len generalizing n with
  | zero => intro b hb; simp [toLeBytes] at hb
  | succ k ih =>
    intro b hb
    simp only [toLeBytes, List.mem_cons] at hb
    rcases hb with h | h
    · subst h; exact Nat.mod_lt _ (by norm_num)
    · exact ih (n / 256) b h

theorem toBeBytes_wf (len n : Nat) : wfBytes (toBeBytes len n) := by
  intro b hb
  exact toLeBytes_wf len n b (List.mem_reverse.mp hb)

theorem leVal_toLeBytes (len n : Nat) (h : n < 256 ^ len) :
    leVal (toLeBytes len n) = n := by
  induction len generalizing n with
  | zero => simp [toLeBytes, leVal]; omega
  | succ k ih =>
    have hdiv : n / 256 < 256 ^ k := by
      rw [Nat.div_lt_iff_lt_mul (by norm_num)]
      calc n < 256 ^ (k + 1) := h
      _ = 256 ^ k * 256 := by ring
    simp only [toLeBytes, leVal, ih (n / 256) hdiv]
    omega

theorem beVal_toBeBytes (len n : Nat) (h : n < 256 ^ len) :
    beVal (toBeBytes len n) = n := by
  simp [beVal, toBeBytes, leVal_toLeBytes len n h]

theorem incRev_eq_none_iff (xs : List Nat) :
    incRev xs = none ↔ ∀ b ∈ xs, b = 255 := by
  induction xs with
  | nil => simp [incRev]
  | cons b rest ih =>
    by_cases hb : b = 255
    · subst hb
      simp only [incRev, if_pos rfl, List.mem_cons]
      constructor
      · intro h x hx
        rcases hx with h1 | h1
        · exact h1
        · rcases h255 : incRev rest with _ | r
          · exact ih.mp h255 x h1
          · rw [h255] at h; simp [Option.map] at h
      · intro h
        have : incRev rest = none := ih.mpr (fun x hx => h x (Or.inr hx))
        simp [this]
    · simp [incRev, hb]

theorem incRev_some (xs r : List Nat) (h : incRev xs = some r) :
    leVal r = leVal xs + 1 ∧ r.length = xs.length ∧ (wfBytes xs → wfBytes r) := by
  induction xs generalizing r with
  | nil => simp [incRev] at h
  | cons b rest ih =>
    by_cases hb : b = 255
    · subst hb
      have hh : incRev (255 :: rest) = (incRev rest).map (fun r => 0 :: r) := by
        simp [incRev]
      rw [hh] at h
      rcases h255 : incRev rest with _ | r0
      · rw [h255] at h; simp at h
      · rw [h255] at h
        replace h : (0 : Nat) :: r0 = r := by simpa using h
        obtain ⟨hv, hl, hw⟩ := ih r0 h255
        subst h
        refine ⟨?_, by simp [hl], ?_⟩
        · simp only [leVal, hv]; ring
        · intro hwf x hx
          simp only [List.mem_cons] at hx
          rcases hx with h1 | h1
          · omega
          · exact hw (fun y hy => hwf y (by simp [hy])) x h1
    · simp only [incRev, if_neg hb, Option.some.injEq] at h
      subst h
      refine ⟨by simp [leVal]; ring, by simp, ?_⟩
      intro hwf x hx
      simp only [List.mem_cons] at hx
      rcases hx with h1 | h1
      · have := hwf b (by simp); omega
      · exact hwf x (by simp [h1])

theorem increment_bytes_be_of_not_max (bs : List Nat) (h : ∃ b ∈ bs, b ≠ 255) :
    (increment_bytes_be bs).1 = true ∧
    beVal (increment_bytes_be bs).2 = beVal bs + 1 ∧
    (increment_bytes_be bs).2.length = bs.length ∧
    (wfBytes bs → wfBytes (increment_bytes_be bs).2) := by
  have hnone : ¬ incRev bs.reverse = none := by
    rw [incRev_eq_none_iff]
    obtain ⟨b, hb, hb255⟩ := h
    intro hall
    exact hb255 (hall b (List.mem_reverse.mpr hb))
  rcases hr : incRev bs.reverse with _ | r
  · exact absurd hr hnone
  · obtain ⟨hv, hl, hw⟩ := incRev_some bs.reverse r hr
    simp only [increment_bytes_be, hr]
    refine ⟨trivial, ?_, ?_, ?_⟩
    · simp only [beVal, List.reverse_reverse, hv]
    · simpa using hl
    · intro hwf x hx
      exact hw (fun y hy => hwf y (List.mem_reverse.mp hy)) x (List.mem_reverse.mp hx)

theorem increment_bytes_be_of_max (bs : List Nat) (h : ∀ b ∈ bs, b = 255) :
    increment_bytes_be bs = (false, bs) := by
  have hnone : incRev bs.reverse = none := by
    rw [incRev_eq_none_iff]
    intro b hb
    exact h b (List.mem_reverse.mp hb)
  have hbs : bs = List.replicate bs.length 255 := List.eq_replicate_of_mem h
  simp only [increment_bytes_be, hnone]
  exact congrArg (fun l => ((false : Bool), l)) hbs.symm


theorem Target.cmp_eq_compare_val (a b : Target)
    (ha : a.tail < 2 ^ 128) (hb : b.tail < 2 ^ 128) :
    Target.cmp a b = compare a.val b.val := by
  unfold Target.cmp Target.val
  by_cases heq : a.tail = b.tail ∧ a.head = b.head
  · rw [if_pos heq, heq.1, heq.2, compare_eq_iff_eq.mpr rfl]
  · rw [if_neg heq]
    by_cases hh : a.head = b.head
    · have ht : a.tail ≠ b.tail := fun hc => heq ⟨hc, hh⟩
      rw [if_neg (by simp [hh]), hh]
      rcases Nat.lt_or_ge a.tail b.tail with hlt | hge
      · rw [compare_lt_iff_lt.mpr hlt, compare_lt_iff_lt.mpr (by omega)]
      · have hgt : b.tail < a.tail := by omega
        rw [compare_gt_iff_gt.mpr hgt, compare_gt_iff_gt.mpr (by omega)]
    · rw [if_pos hh]
      rcases Nat.lt_or_ge a.head b.head with hlt | hge
      · have : a.head * 2 ^ 128 + a.tail < b.head * 2 ^ 128 + b.tail := by
          have : a.head * 2 ^ 128 + 2 ^ 128 ≤ b.head * 2 ^ 128 := by
            calc a.head * 2 ^ 128 + 2 ^ 128 = (a.head + 1) * 2 ^ 128 := by ring
            _ ≤ b.head * 2 ^ 128 := Nat.mul_le_mul_right _ hlt
          omega
        rw [compare_lt_iff_lt.mpr hlt, compare_lt_iff_lt.mpr this]
      · have hgt : b.head < a.head := by omega
        have : b.head * 2 ^ 128 + b.tail < a.head * 2 ^ 128 + a.tail := by
          have : b.head * 2 ^ 128 + 2 ^ 128 ≤ a.head * 2 ^ 128 := by
            calc b.head * 2 ^ 128 + 2 ^ 128 = (b.head + 1) * 2 ^ 128 := by ring
            _ ≤ a.head * 2 ^ 128 := Nat.mul_le_mul_right _ hgt
          omega
        rw [compare_gt_iff_gt.mpr hgt, compare_gt_iff_gt.mpr this]

theorem take_of_length_le16 (l : List Nat) (h : l.length = 16) : l.take 16 = l :=
  List.take_of_length_le (le_of_eq h)

theorem pow256_16 : (256 : Nat) ^ 16 = 2 ^ 128 := by norm_num

theorem beVal_take16_lt (l : List Nat) (hl : 16 ≤ l.length) (hw : wfBytes l) :
    beVal (l.take 16) < 2 ^ 128 := by
  have h := beVal_lt (l.take 16) (fun x hx => hw x (List.take_subset 16 l hx))
  rw [List.length_take] at h
  have hmin : min 16 l.length = 16 := by omega
  rw [hmin, pow256_16] at h
  exact h

theorem targetOfBytes32_eq_beHalves (a : List Nat) (ha : a.length = 32) :
    targetOfBytes32 a = ⟨beVal (a.drop 16), beVal (a.take 16)⟩ := by
  have h1 : a.reverse.take 16 = (a.drop 16).reverse := by
    rw [List.take_reverse, ha]
  have h2 : a.reverse.drop 16 = (a.take 16).reverse := by
    rw [List.drop_reverse, ha]
  have h3 : (a.take 16).reverse.take 16 = (a.take 16).reverse := by
    apply List.take_of_length_le
    simp [ha]
  show Target.mk (leVal (a.reverse.take 16)) (leVal ((a.reverse.drop 16).take 16)) = _
  rw [h1, h2, h3]
  rfl

theorem Target.cmp_eq_iff (a b : Target) : Target.cmp a b = Ordering.eq ↔ a = b := by
  unfold Target.cmp
  constructor
  · intro h
    by_cases heq : a.tail = b.tail ∧ a.head = b.head
    · cases a; cases b
      simp only at heq
      simp [heq.1, heq.2]
    · rw [if_neg heq] at h
      by_cases hh : a.head = b.head
      · rw [if_neg (by simp [hh])] at h
        have := compare_eq_iff_eq.mp h
        exact absurd ⟨this, hh⟩ heq
      · rw [if_pos hh] at h
        exact absurd (compare_eq_iff_eq.mp h) hh
  · intro h
    subst h
    simp

theorem increment_bytes_be_length (bs : List Nat) :
    (increment_bytes_be bs).2.length = bs.length := by
  unfold increment_bytes_be
  rcases hr : incRev bs.reverse with _ | r
  · simp
  · obtain ⟨_, hl, _⟩ := incRev_some bs.reverse r hr
    simpa using hl

theorem increment_bytes_be_success (bs : List Nat) (h : (increment_bytes_be bs).1 = true) :
    beVal (increment_bytes_be bs).2 = beVal bs + 1 ∧
    (wfBytes bs → wfBytes (increment_bytes_be bs).2) := by
  unfold increment_bytes_be at h ⊢
  rcases hr : incRev bs.reverse with _ | r
  · rw [hr] at h
    simp at h
  · obtain ⟨hv, _, hw⟩ := incRev_some bs.reverse r hr
    constructor
    · show beVal r.reverse = beVal bs + 1
      unfold beVal
      rw [List.reverse_reverse, hv]
    · intro hwf x hx
      have hx2 : x ∈ r := List.mem_reverse.mp hx
      exact hw (fun y hy => hwf y (List.mem_reverse.mp hy)) x hx2

theorem increment_bytes_be_failure (bs : List Nat) (h : (increment_bytes_be bs).1 = false) :
    (∀ b ∈ bs, b = 255) ∧ increment_bytes_be bs = (false, bs) := by
  by_cases hmax : ∀ b ∈ bs, b = 255
  · exact ⟨hmax, increment_bytes_be_of_max bs hmax⟩
  · exfalso
    push_neg at hmax
    obtain ⟨h1, _, _, _⟩ := increment_bytes_be_of_not_max bs hmax
    rw [h1] at h
    exact Bool.noConfusion h

theorem increment_bytes_be_wf (bs : List Nat) (h : wfBytes bs) :
    wfBytes (increment_bytes_be bs).2 := by
  by_cases hb : (increment_bytes_be bs).1 = true
  · exact (increment_bytes_be_success bs hb).2 h
  · have hfail := (increment_bytes_be_failure bs (Bool.eq_false_iff.mpr hb)).2
    rw [hfail]
    exact h

theorem slice_length (bs : List Nat) (s e : Nat) (he : e ≤ bs.length) :
    (slice bs s e).length = e - s := by
  unfold slice
  rw [List.length_take, List.length_drop]
  omega

theorem slice_wf (bs : List Nat) (s e : Nat) (h : wfBytes bs) : wfBytes (slice bs s e) :=
  fun x hx => h x (List.drop_subset s bs (List.take_subset _ _ hx))

theorem slice_suffix (bs : List Nat) (s : Nat) : slice bs s bs.length = bs.drop s := by
  unfold slice
  apply List.take_of_length_le
  rw [List.length_drop]

theorem slice_reassemble (bs : List Nat) (s e : Nat) (hse : s ≤ e) (he : e ≤ bs.length) :
    bs.take s ++ slice bs s e ++ bs.drop e = bs := by
  unfold slice
  rw [List.append_assoc]
  have h1 : bs.drop e = (bs.drop s).drop (e - s) := by
    rw [List.drop_drop]
    congr 1
    omega
  rw [h1, List.take_append_drop, List.take_append_drop]

theorem slice_splice (bs mid : List Nat) (s e : Nat) (hse : s ≤ e) (he : e ≤ bs.length)
    (hmid : mid.length = e - s) :
    slice (bs.take s ++ mid ++ bs.drop e) s e = mid := by
  unfold slice
  rw [List.append_assoc, List.drop_left' (by rw [List.length_take]; omega),
    List.take_left' hmid]

theorem spliceIncrement_length (bs : List Nat) (s e : Nat) (hse : s ≤ e)
    (he : e ≤ bs.length) :
    (spliceIncrement bs s e).2.length = bs.length := by
  unfold spliceIncrement
  simp only [List.length_append, increment_bytes_be_length, slice_length bs s e he,
    List.length_take, List.length_drop]
  omega

theorem spliceIncrement_wf (bs : List Nat) (s e : Nat) (h : wfBytes bs) :
    wfBytes (spliceIncrement bs s e).2 := by
  intro x hx
  unfold spliceIncrement at hx
  simp only [List.mem_append] at hx
  rcases hx with (hx | hx) | hx
  · exact h x (List.take_subset _ _ hx)
  · exact increment_bytes_be_wf _ (slice_wf bs s e h) x hx
  · exact h x (List.drop_subset _ _ hx)

theorem spliceIncrement_getElem_lt (bs : List Nat) (s e i : Nat) (hse : s ≤ e)
    (he : e ≤ bs.length) (hi : i < s) :
    (spliceIncrement bs s e).2[i]? = bs[i]? := by
  unfold spliceIncrement
  rw [List.append_assoc,
    List.getElem?_append_left (by rw [List.length_take]; omega),
    List.getElem?_take_of_lt hi]

theorem spliceIncrement_getElem_ge (bs : List Nat) (s e i : Nat) (hse : s ≤ e)
    (he : e ≤ bs.length) (hi : e ≤ i) :
    (spliceIncrement bs s e).2[i]? = bs[i]? := by
  unfold spliceIncrement
  have hlen : (bs.take s ++ (increment_bytes_be (slice bs s e)).2).length = e := by
    rw [List.length_append, List.length_take, increment_bytes_be_length,
      slice_length bs s e he]
    omega
  rw [List.getElem?_append_right (by rw [hlen]; exact hi), hlen, List.getElem?_drop]
  congr 1
  omega

theorem spliceIncrement_suffix_val (bs : List Nat) (s : Nat) (hs : s ≤ bs.length)
    (hok : (spliceIncrement bs s bs.length).1 = true) :
    beVal (spliceIncrement bs s bs.length).2 = beVal bs + 1 := by
  have hsl : slice bs s bs.length = bs.drop s := slice_suffix bs s
  have hinc := increment_bytes_be_success (slice bs s bs.length) hok
  unfold spliceIncrement
  rw [List.drop_length, List.append_nil, beVal_append, increment_bytes_be_length,
    slice_length bs s bs.length le_rfl, hinc.1, hsl]
  conv_rhs => rw [← List.take_append_drop s bs, beVal_append]
  rw [List.length_drop]
  ring

theorem extranonceOfInner_val (bs : List Nat) (h : bs.length = 32) :
    (extranonceOfInner bs).val = beVal bs := by
  unfold extranonceOfInner Extranonce.val
  have h1 : (bs.drop 16).take 16 = bs.drop 16 :=
    take_of_length_le16 _ (by rw [List.length_drop, h])
  rw [h1]
  conv_rhs => rw [← List.take_append_drop 16 bs, beVal_append]
  rw [List.length_drop, h]
  norm_num

theorem slice_all_zero_iff (bs : List Nat) (s e : Nat) (hse : s ≤ e) (he : e ≤ bs.length) :
    ((slice bs s e).all (fun b => b == 0) = true ↔
      ∀ i b, s ≤ i → i < e → bs[i]? = some b → b = 0) := by
  rw [List.all_eq_true]
  constructor
  · intro h i b hsi hie hib
    have hj : (slice bs s e)[i - s]? = some b := by
      unfold slice
      rw [List.getElem?_take_of_lt (by omega), List.getElem?_drop,
        Nat.add_sub_cancel' hsi]
      exact hib
    have hmem : b ∈ slice bs s e := List.mem_iff_getElem?.mpr ⟨i - s, hj⟩
    simpa using h b hmem
  · intro h x hx
    obtain ⟨j, hj⟩ := List.mem_iff_getElem?.mp hx
    have hjlt : j < (slice bs s e).length := by
      rcases List.getElem?_eq_some_iff.mp hj with ⟨hlt, _⟩
      exact hlt
    rw [slice_length bs s e he] at hjlt
    have hbs : bs[s + j]? = some x := by
      have hstep : (slice bs s e)[j]? = (bs.drop s)[j]? := by
        unfold slice
        exact List.getElem?_take_of_lt hjlt
      rw [hstep, List.getElem?_drop] at hj
      exact hj
    have := h (s + j) x (by omega) (by omega) hbs
    simpa using this

theorem next_standard_valid (x : ExtendedExtranonce) (hv : validPartition x) :
    validPartition x.next_standard.1 := by
  obtain ⟨a1, a2, a3, a4, a5, a6, a7, a8⟩ := hv
  refine ⟨a1, a2, a3, a4, a5, a6, a7, ?_⟩
  show (spliceIncrement x.inner x.range2.1 x.range2.2).2.length = 32
  rw [spliceIncrement_length x.inner _ _ a7 (by omega)]
  exact a8

theorem next_standard_wf (x : ExtendedExtranonce) (hw : wfBytes x.inner) :
    wfBytes x.next_standard.1.inner :=
  spliceIncrement_wf _ _ _ hw

theorem next_standard_some_val (x : ExtendedExtranonce) (hv : validPartition x)
    (e : Extranonce) (h : x.next_standard.2 = some e) :
    beVal x.next_standard.1.inner = beVal x.inner + 1 ∧
    e.val = beVal x.next_standard.1.inner := by
  obtain ⟨a1, a2, a3, a4, a5, a6, a7, a8⟩ := hv
  have hok : (spliceIncrement x.inner x.range2.1 x.range2.2).1 = true := by
    by_contra hok
    have hnone : x.next_standard.2 = none := by
      show (if (spliceIncrement x.inner x.range2.1 x.range2.2).1 then _ else none) = none
      rw [if_neg hok]
    rw [hnone] at h
    exact Option.noConfusion h
  have he : e = extranonceOfInner (spliceIncrement x.inner x.range2.1 x.range2.2).2 := by
    have hsome : x.next_standard.2 =
        some (extranonceOfInner (spliceIncrement x.inner x.range2.1 x.range2.2).2) := by
      show (if (spliceIncrement x.inner x.range2.1 x.range2.2).1 then _ else none) = _
      rw [if_pos hok]
    rw [hsome] at h
    injection h with h2
    exact h2.symm
  have h32 : x.range2.2 = x.inner.length := by omega
  constructor
  · show beVal (spliceIncrement x.inner x.range2.1 x.range2.2).2 = beVal x.inner + 1
    rw [h32] at hok ⊢
    exact spliceIncrement_suffix_val x.inner x.range2.1 (by omega) hok
  · rw [he]
    show (extranonceOfInner (spliceIncrement x.inner x.range2.1 x.range2.2).2).val = _
    rw [extranonceOfInner_val _ (by rw [spliceIncrement_length x.inner _ _ a7 (by omega)]; exact a8)]
    rfl

theorem next_standard_none_state (x : ExtendedExtranonce) (hv : validPartition x)
    (h : x.next_standard.2 = none) : x.next_standard.1 = x := by
  obtain ⟨a1, a2, a3, a4, a5, a6, a7, a8⟩ := hv
  have hok : (spliceIncrement x.inner x.range2.1 x.range2.2).1 = false := by
    by_contra hok
    have hb : (spliceIncrement x.inner x.range2.1 x.range2.2).1 = true := by
      cases hval : (spliceIncrement x.inner x.range2.1 x.range2.2).1
      · exact absurd hval hok
      · rfl
    have hsome : x.next_standard.2 =
        some (extranonceOfInner (spliceIncrement x.inner x.range2.1 x.range2.2).2) := by
      show (if (spliceIncrement x.inner x.range2.1 x.range2.2).1 then _ else none) = _
      rw [if_pos hb]
    rw [hsome] at h
    exact Option.noConfusion h
  have hfail := increment_bytes_be_failure (slice x.inner x.range2.1 x.range2.2) hok
  have hinner : (spliceIncrement x.inner x.range2.1 x.range2.2).2 = x.inner := by
    show x.inner.take x.range2.1 ++
      (increment_bytes_be (slice x.inner x.range2.1 x.range2.2)).2 ++
      x.inner.drop x.range2.2 = x.inner
    rw [hfail.2]
    exact slice_reassemble x.inner x.range2.1 x.range2.2 a7 (by omega)
  calc x.next_standard.1
      = { x with inner := (spliceIncrement x.inner x.range2.1 x.range2.2).2 } := rfl
    _ = { x with inner := x.inner } := by rw [hinner]
    _ = x := by cases x; rfl

theorem stdOut_none_forever (x : ExtendedExtranonce) (hv : validPartition x)
    (h : x.next_standard.2 = none) : ∀ k, stdOut x k = none := by
  intro k
  induction k with
  | zero => exact h
  | succ k ih =>
    have hx : stdStep x = x := next_standard_none_state x hv h
    show stdOut (stdStep x) k = none
    rw [hx]
    exact ih

theorem stdOut_val (n : Nat) :
    ∀ (x : ExtendedExtranonce), validPartition x → wfBytes x.inner →
      ∀ e, stdOut x n = some e → e.val = beVal x.inner + n + 1 := by
  induction n with
  | zero =>
    intro x hv hw e h
    obtain ⟨h1, h2⟩ := next_standard_some_val x hv e h
    omega
  | succ n ih =>
    intro x hv hw e h
    rcases h0 : x.next_standard.2 with _ | e0
    · have hnone := stdOut_none_forever x hv h0 (n + 1)
      rw [hnone] at h
      exact Option.noConfusion h
    · have hv2 : validPartition (stdStep x) := next_standard_valid x hv
      have hw2 : wfBytes (stdStep x).inner := next_standard_wf x hw
      have hval := ih (stdStep x) hv2 hw2 e h
      have h1 : beVal (stdStep x).inner = beVal x.inner + 1 :=
        (next_standard_some_val x hv e0 h0).1
      omega

/-- C4: for every byte slice, `increment_bytes_be` adds one to the value of
the slice read as a big-endian integer and returns success when the slice is
not all `0xFF`; when every byte is `0xFF` it returns failure and leaves the
buffer unchanged at all-`0xFF`. -/
theorem increment_bytes_be_correct (bs : List Nat) (hwf : wfBytes bs) :
    ((∃ b ∈ bs, b ≠ 255) →
      (increment_bytes_be bs).1 = true ∧
      beVal (increment_bytes_be bs).2 = beVal bs + 1) ∧
    ((∀ b ∈ bs, b = 255) → increment_bytes_be bs = (false, bs)) := by
  refine ⟨fun h => ?_, increment_bytes_be_of_max bs⟩
  obtain ⟨h1, h2, _, _⟩ := increment_bytes_be_of_not_max bs h
  exact ⟨h1, h2⟩

theorem increment_bytes_be_correct_witness :
    wfBytes [0, 255] ∧
    ((increment_bytes_be [0, 255]).1 = true ∧
      beVal (increment_bytes_be [0, 255]).2 = beVal [0, 255] + 1) :=
  ⟨by decide, (increment_bytes_be_correct [0, 255] (by decide)).1 ⟨0, by decide, by decide⟩⟩

/-- C3: `Extranonce::next` advances the 256-bit big-endian counter by exactly
one: it increments `tail`; at `tail = u128::MAX` it advances `head` and
resets `tail` to 0; with both halves at `u128::MAX` it fails instead of
wrapping; and from head=5, tail=u128::MAX−10, 100 calls reach head=6,
tail=89. -/
theorem extranonce_next_correct (e : Extranonce)
    (hh : e.head < 2 ^ 128) (ht : e.tail < 2 ^ 128) :
    (e.tail < u128MAX → e.next = some ⟨e.head, e.tail + 1⟩) ∧
    (e.tail = u128MAX → e.head < u128MAX → e.next = some ⟨e.head + 1, 0⟩) ∧
    (e.tail = u128MAX → e.head = u128MAX → e.next = none) ∧
    (∀ e2, e.next = some e2 → e2.val = e.val + 1) ∧
    Extranonce.nextIter 100 ⟨5, u128MAX - 10⟩ = some ⟨6, 89⟩ := by
  have hpos : (0 : Nat) < 2 ^ 128 := by positivity
  have hm1 : u128MAX + 1 = 2 ^ 128 := by
    unfold u128MAX
    omega
  refine ⟨?_, ?_, ?_, ?_, by decide⟩
  · intro hlt
    unfold Extranonce.next
    rw [if_neg (fun hc => absurd hc.1 (Nat.ne_of_lt hlt)), if_neg (Nat.ne_of_lt hlt)]
  · intro htl hhd
    unfold Extranonce.next
    rw [if_neg (fun hc => absurd hc.2 (Nat.ne_of_lt hhd)), if_pos htl]
  · intro h1 h2
    unfold Extranonce.next
    rw [if_pos ⟨h1, h2⟩]
  · intro e2 h
    unfold Extranonce.next at h
    by_cases hc : e.tail = u128MAX ∧ e.head = u128MAX
    · rw [if_pos hc] at h
      exact absurd h (by simp)
    · rw [if_neg hc] at h
      by_cases ht2 : e.tail = u128MAX
      · rw [if_pos ht2] at h
        injection h with h2
        subst h2
        unfold Extranonce.val
        rw [ht2, ← hm1]
        ring
      · rw [if_neg ht2] at h
        injection h with h2
        subst h2
        unfold Extranonce.val
        ring

theorem extranonce_next_correct_witness :
    (Extranonce.mk 0 0).next = some ⟨0, 0 + 1⟩ :=
  (extranonce_next_correct ⟨0, 0⟩ (by norm_num) (by norm_num)).1 (by decide)

/-- C6: `Target` comparison agrees with comparison of the represented
256-bit integers `head * 2^128 + tail` (hence is a total order), it is `eq`
exactly on equal targets, and {0,0} < {0,1} < {1,0}. -/
theorem target_ord_total_consistent (a b : Target)
    (ha1 : a.head < 2 ^ 128) (ha2 : a.tail < 2 ^ 128)
    (hb1 : b.head < 2 ^ 128) (hb2 : b.tail < 2 ^ 128) :
    Target.cmp a b = compare a.val b.val ∧
    (Target.cmp a b = Ordering.eq ↔ a = b) ∧
    (Target.cmp a b = Ordering.lt ↔ a.val < b.val) ∧
    Target.cmp ⟨0, 0⟩ ⟨0, 1⟩ = Ordering.lt ∧
    Target.cmp ⟨0, 1⟩ ⟨1, 0⟩ = Ordering.lt := by
  have h := Target.cmp_eq_compare_val a b ha2 hb2
  exact ⟨h, Target.cmp_eq_iff a b, by rw [h]; exact compare_lt_iff_lt, by decide, by decide⟩

theorem target_ord_total_consistent_witness :
    Target.cmp ⟨0, 0⟩ ⟨0, 1⟩ = compare (Target.val ⟨0, 0⟩) (Target.val ⟨0, 1⟩) :=
  (target_ord_total_consistent ⟨0, 0⟩ ⟨0, 1⟩ (by norm_num) (by norm_num)
    (by norm_num) (by norm_num)).1

/-- C7 divergence: for the extranonce with head=0, tail=1 (256-bit value 1),
the `U256` conversion does not produce the little-endian encoding of the
value, while the `B032` conversion does. -/
theorem extranonce_u256_wire_mismatch :
    u256OfExtranonce ⟨0, 1⟩ ≠ toLeBytes 32 (Extranonce.val ⟨0, 1⟩) ∧
    b032OfExtranonce ⟨0, 1⟩ = toLeBytes 32 (Extranonce.val ⟨0, 1⟩) :=
  ⟨by decide, by decide⟩

/-- C2 counterexample: for the wire arrays with a single 1 at byte 16 and a
single 1 at byte 31, `Target::from` does not preserve the little-endian
integer order (the first is smaller as a little-endian integer, yet its
target compares greater). -/
theorem target_from_wire_le_order_counterexample :
    ¬ (Target.cmp (targetOfBytes32 (List.replicate 16 0 ++ 1 :: List.replicate 15 0))
          (targetOfBytes32 (List.replicate 31 0 ++ [1])) = Ordering.lt ↔
        leVal (List.replicate 16 0 ++ 1 :: List.replicate 15 0) <
          leVal (List.replicate 31 0 ++ [1])) := by
  decide

/-- C2 amended: `Target::from(a) < Target::from(b)` exactly when the integer
whose high half is bytes 16..32 of `a` read big-endian and whose low half is
bytes 0..16 of `a` read big-endian is smaller than the corresponding integer
for `b` (this mixed reading, not the little-endian wire order, is the one the
conversion preserves). -/
theorem target_from_wire_cmp_beHalves (a b : List Nat)
    (ha : a.length = 32) (hb : b.length = 32)
    (hwa : wfBytes a) (hwb : wfBytes b) :
    (Target.cmp (targetOfBytes32 a) (targetOfBytes32 b) = Ordering.lt ↔
      beHalvesVal a < beHalvesVal b) := by
  rw [targetOfBytes32_eq_beHalves a ha, targetOfBytes32_eq_beHalves b hb]
  have hta : beVal (a.take 16) < 2 ^ 128 := beVal_take16_lt a (by omega) hwa
  have htb : beVal (b.take 16) < 2 ^ 128 := beVal_take16_lt b (by omega) hwb
  rw [Target.cmp_eq_compare_val _ _ hta htb]
  exact compare_lt_iff_lt

theorem target_from_wire_cmp_beHalves_witness :
    (Target.cmp (targetOfBytes32 (List.replicate 32 0))
        (targetOfBytes32 (List.replicate 31 0 ++ [1])) = Ordering.lt ↔
      beHalvesVal (List.replicate 32 0) < beHalvesVal (List.replicate 31 0 ++ [1])) :=
  target_from_wire_cmp_beHalves (List.replicate 32 0) (List.replicate 31 0 ++ [1])
    (by decide) (by decide) (by decide) (by decide)

/-- C9: converting a `Target` to its `U256` wire form and back is the
identity on `u128`-bounded fields, and likewise for an `Extranonce` through
`U256` and through `B032`. -/
theorem wire_roundtrip (t : Target) (e : Extranonce)
    (ht1 : t.head < 2 ^ 128) (ht2 : t.tail < 2 ^ 128)
    (he1 : e.head < 2 ^ 128) (he2 : e.tail < 2 ^ 128) :
    targetOfU256 (u256OfTarget t) = t ∧
    extranonceOfU256 (u256OfExtranonce e) = e ∧
    extranonceOfB032 (b032OfExtranonce e) = e := by
  obtain ⟨th, tt⟩ := t
  obtain ⟨eh, et⟩ := e
  refine ⟨?_, ?_, ?_⟩
  · unfold targetOfU256 u256OfTarget
    rw [List.take_left' (toLeBytes_length 16 th), List.drop_left' (toLeBytes_length 16 th),
      take_of_length_le16 _ (toLeBytes_length 16 tt),
      leVal_toLeBytes 16 th (by rw [pow256_16]; exact ht1),
      leVal_toLeBytes 16 tt (by rw [pow256_16]; exact ht2)]
  · unfold extranonceOfU256 u256OfExtranonce
    rw [List.take_left' (toLeBytes_length 16 eh), List.drop_left' (toLeBytes_length 16 eh),
      leVal_toLeBytes 16 eh (by rw [pow256_16]; exact he1),
      leVal_toLeBytes 16 et (by rw [pow256_16]; exact he2)]
  · unfold extranonceOfB032 b032OfExtranonce
    rw [List.take_left' (toLeBytes_length 16 et), List.drop_left' (toLeBytes_length 16 et),
      leVal_toLeBytes 16 eh (by rw [pow256_16]; exact he1),
      leVal_toLeBytes 16 et (by rw [pow256_16]; exact he2)]

theorem wire_roundtrip_witness :
    targetOfU256 (u256OfTarget ⟨1, 2⟩) = ⟨1, 2⟩ ∧
    extranonceOfU256 (u256OfExtranonce ⟨3, 4⟩) = ⟨3, 4⟩ ∧
    extranonceOfB032 (b032OfExtranonce ⟨3, 4⟩) = ⟨3, 4⟩ :=
  wire_roundtrip ⟨1, 2⟩ ⟨3, 4⟩ (by norm_num) (by norm_num) (by norm_num) (by norm_num)

/-- C1: on a validly partitioned allocator, the 256-bit values (the full
32-byte buffer read big-endian) of the extranonces returned by successive
`next_standard` calls are strictly increasing, and no value is returned
twice. -/
theorem next_standard_monotone (x : ExtendedExtranonce) (hv : validPartition x)
    (hw : wfBytes x.inner) (m n : Nat) (em en : Extranonce) (hmn : m < n)
    (hm : stdOut x m = some em) (hn : stdOut x n = some en) :
    em.val < en.val ∧ em ≠ en := by
  have h1 := stdOut_val m x hv hw em hm
  have h2 := stdOut_val n x hv hw en hn
  constructor
  · omega
  · intro he
    rw [he] at h1
    omega

theorem next_standard_monotone_witness :
    (Extranonce.mk 0 1).val < (Extranonce.mk 0 2).val ∧
    Extranonce.mk 0 1 ≠ Extranonce.mk 0 2 :=
  next_standard_monotone
    ⟨List.replicate 32 0, (0, 0), (0, 16), (16, 32)⟩ (by decide) (by decide)
    0 1 ⟨0, 1⟩ ⟨0, 2⟩ (by decide) (by decide) (by decide)

/-- C10: on a validly partitioned allocator, `next_standard` leaves every
byte outside `range_2` unchanged and `next_extended` leaves every byte
outside `range_1` unchanged (in particular `range_0` is never written), even
when the incremented range overflows. -/
theorem allocator_frame (x : ExtendedExtranonce) (hv : validPartition x) (req : Nat) :
    (∀ i, i < x.range2.1 → x.next_standard.1.inner[i]? = x.inner[i]?) ∧
    (∀ i, x.range2.2 ≤ i → x.next_standard.1.inner[i]? = x.inner[i]?) ∧
    (∀ i, i < x.range1.1 → (x.next_extended req).1.inner[i]? = x.inner[i]?) ∧
    (∀ i, x.range1.2 ≤ i → (x.next_extended req).1.inner[i]? = x.inner[i]?) := by
  obtain ⟨a1, a2, a3, a4, a5, a6, a7, a8⟩ := hv
  have hb2 : x.range2.2 ≤ x.inner.length := by omega
  have hb1 : x.range1.2 ≤ x.inner.length := by omega
  refine ⟨?_, ?_, ?_, ?_⟩
  · intro i hi
    exact spliceIncrement_getElem_lt x.inner _ _ i a7 hb2 hi
  · intro i hi
    exact spliceIncrement_getElem_ge x.inner _ _ i a7 hb2 hi
  · intro i hi
    unfold ExtendedExtranonce.next_extended
    by_cases hreq : req > x.range2.2 - x.range2.1
    · rw [if_pos hreq]
    · rw [if_neg hreq]
      exact spliceIncrement_getElem_lt x.inner _ _ i a6 hb1 hi
  · intro i hi
    unfold ExtendedExtranonce.next_extended
    by_cases hreq : req > x.range2.2 - x.range2.1
    · rw [if_pos hreq]
    · rw [if_neg hreq]
      exact spliceIncrement_getElem_ge x.inner _ _ i a6 hb1 hi

theorem allocator_frame_witness :
    (ExtendedExtranonce.mk (List.replicate 32 0) (0, 4) (4, 16) (16, 32)).next_standard.1.inner[0]? =
      (ExtendedExtranonce.mk (List.replicate 32 0) (0, 4) (4, 16) (16, 32)).inner[0]? :=
  (allocator_frame ⟨List.replicate 32 0, (0, 4), (4, 16), (16, 32)⟩ (by decide) 0).1
    0 (by decide)

/-- C5: `from_upstream_extranonce` rejects (returns none) exactly when some
byte of the 32-byte value inside `range_1 ∪ range_2` is nonzero; an accepted
allocator retains the value, whose bytes in `range_1 ∪ range_2` are all zero;
and the concrete value `[1,1,1,1, 0,...,0, 0,0,0,1]` with ranges
[0..4), [4..20), [20..32) is rejected. -/
theorem from_upstream_correct (v : Extranonce) (r0 r1 r2 : Nat × Nat)
    (h01 : r0.2 = r1.1) (h12 : r1.2 = r2.1) (h2e : r2.2 = 32)
    (hle1 : r1.1 ≤ r1.2) (hle2 : r2.1 ≤ r2.2)
    (hh : v.head < 2 ^ 128) (ht : v.tail < 2 ^ 128) :
    (ExtendedExtranonce.from_upstream_extranonce v r0 r1 r2 = none ↔
      ∃ i b, r1.1 ≤ i ∧ i < r2.2 ∧
        (toBeBytes 16 v.head ++ toBeBytes 16 v.tail)[i]? = some b ∧ b ≠ 0) ∧
    (∀ s, ExtendedExtranonce.from_upstream_extranonce v r0 r1 r2 = some s →
      s.inner = toBeBytes 16 v.head ++ toBeBytes 16 v.tail ∧
      ∀ i b, r1.1 ≤ i → i < r2.2 → s.inner[i]? = some b → b = 0) ∧
    ExtendedExtranonce.from_upstream_extranonce ⟨0x01010101 * 2 ^ 96, 1⟩
      (0, 4) (4, 20) (20, 32) = none := by
  have hlen : (toBeBytes 16 v.head ++ toBeBytes 16 v.tail).length = 32 := by
    rw [List.length_append, toBeBytes_length, toBeBytes_length]
  have hse : r1.1 ≤ r2.2 := by omega
  have he32 : r2.2 ≤ (toBeBytes 16 v.head ++ toBeBytes 16 v.tail).length := by omega
  have hiff := slice_all_zero_iff (toBeBytes 16 v.head ++ toBeBytes 16 v.tail)
    r1.1 r2.2 hse he32
  have hinner : (ExtendedExtranonce.from_extranonce v r0 r1 r2).inner =
      toBeBytes 16 v.head ++ toBeBytes 16 v.tail := rfl
  refine ⟨?_, ?_, by decide⟩
  · unfold ExtendedExtranonce.from_upstream_extranonce
    rw [hinner]
    by_cases hc : ((slice (toBeBytes 16 v.head ++ toBeBytes 16 v.tail) r1.1 r2.2).all
        (fun b => b == 0)) = true
    · rw [if_pos hc]
      constructor
      · intro hcontra
        exact Option.noConfusion hcontra
      · rintro ⟨i, b, h1, h2, h3, h4⟩
        exact absurd (hiff.mp hc i b h1 h2 h3) h4
    · rw [if_neg hc]
      constructor
      · intro _
        have hnall : ¬ ∀ i b, r1.1 ≤ i → i < r2.2 →
            (toBeBytes 16 v.head ++ toBeBytes 16 v.tail)[i]? = some b → b = 0 :=
          fun hall => hc (hiff.mpr hall)
        push_neg at hnall
        obtain ⟨i, b, h1, h2, h3, h4⟩ := hnall
        exact ⟨i, b, h1, h2, h3, h4⟩
      · intro _
        rfl
  · intro s hs
    unfold ExtendedExtranonce.from_upstream_extranonce at hs
    rw [hinner] at hs
    by_cases hc : ((slice (toBeBytes 16 v.head ++ toBeBytes 16 v.tail) r1.1 r2.2).all
        (fun b => b == 0)) = true
    · rw [if_pos hc] at hs
      injection hs with hs2
      subst hs2
      refine ⟨hinner, ?_⟩
      intro i b h1 h2 h3
      rw [hinner] at h3
      exact hiff.mp hc i b h1 h2 h3
    · rw [if_neg hc] at hs
      exact Option.noConfusion hs

theorem from_upstream_correct_witness :
    ExtendedExtranonce.from_upstream_extranonce ⟨0x01010101 * 2 ^ 96, 1⟩
      (0, 4) (4, 20) (20, 32) = none :=
  (from_upstream_correct ⟨0, 0⟩ (0, 4) (4, 20) (20, 32) rfl rfl rfl (by norm_num)
    (by norm_num) (by norm_num) (by norm_num)).2.2

/-- C8 counterexample: with `range_1 = [0..16)` all `0xFF`,
`range_2 = [16..32)` and `required_len = 16 ≤ len(range_2)`, `next_extended`
returns none instead of a buffer. -/
theorem next_extended_claim_counterexample :
    ¬ ((16 : Nat) >
      (ExtendedExtranonce.mk (List.replicate 16 255 ++ List.replicate 16 0)
        (0, 0) (0, 16) (16, 32)).range2.2 -
      (ExtendedExtranonce.mk (List.replicate 16 255 ++ List.replicate 16 0)
        (0, 0) (0, 16) (16, 32)).range2.1) ∧
    ((ExtendedExtranonce.mk (List.replicate 16 255 ++ List.replicate 16 0)
        (0, 0) (0, 16) (16, 32)).next_extended 16).2 = none :=
  ⟨by decide, by decide⟩

/-- C8 amended: `next_extended` fails when `required_len` exceeds the width
of `range_2`; otherwise, when some byte of `range_1` is below `0xFF` it
increments `range_1` as a big-endian counter by one and returns the 32-byte
buffer (as an `Extranonce` whose value is the buffer read big-endian); when
`range_1` is entirely `0xFF` (in particular when it is empty) it fails
instead of returning a buffer. -/
theorem next_extended_correct (x : ExtendedExtranonce) (req : Nat)
    (hv : validPartition x) (hw : wfBytes x.inner) :
    (req > x.range2.2 - x.range2.1 → x.next_extended req = (x, none)) ∧
    (req ≤ x.range2.2 - x.range2.1 →
      (∃ b ∈ slice x.inner x.range1.1 x.range1.2, b ≠ 255) →
      (x.next_extended req).2 = some (extranonceOfInner (x.next_extended req).1.inner) ∧
      beVal (slice (x.next_extended req).1.inner x.range1.1 x.range1.2) =
        beVal (slice x.inner x.range1.1 x.range1.2) + 1 ∧
      (extranonceOfInner (x.next_extended req).1.inner).val =
        beVal (x.next_extended req).1.inner) ∧
    (req ≤ x.range2.2 - x.range2.1 →
      (∀ b ∈ slice x.inner x.range1.1 x.range1.2, b = 255) →
      (x.next_extended req).2 = none) := by
  obtain ⟨a1, a2, a3, a4, a5, a6, a7, a8⟩ := hv
  have hb1 : x.range1.2 ≤ x.inner.length := by omega
  refine ⟨?_, ?_, ?_⟩
  · intro hreq
    unfold ExtendedExtranonce.next_extended
    rw [if_pos hreq]
  · intro hreq hex
    have hnot : ¬ req > x.range2.2 - x.range2.1 := not_lt.mpr hreq
    obtain ⟨hflag, hval, _, _⟩ := increment_bytes_be_of_not_max _ hex
    have hflag2 : (spliceIncrement x.inner x.range1.1 x.range1.2).1 = true := hflag
    have hstate : (x.next_extended req).1.inner =
        (spliceIncrement x.inner x.range1.1 x.range1.2).2 := by
      unfold ExtendedExtranonce.next_extended
      rw [if_neg hnot]
    refine ⟨?_, ?_, ?_⟩
    · rw [hstate]
      show (ExtendedExtranonce.next_extended x req).2 = _
      unfold ExtendedExtranonce.next_extended
      rw [if_neg hnot]
      show (if (spliceIncrement x.inner x.range1.1 x.range1.2).1 then
          some (extranonceOfInner (spliceIncrement x.inner x.range1.1 x.range1.2).2)
        else none) = _
      rw [if_pos hflag2]
    · rw [hstate]
      show beVal (slice (x.inner.take x.range1.1 ++
          (increment_bytes_be (slice x.inner x.range1.1 x.range1.2)).2 ++
          x.inner.drop x.range1.2) x.range1.1 x.range1.2) = _
      rw [slice_splice x.inner _ x.range1.1 x.range1.2 a6 hb1
        (by rw [increment_bytes_be_length, slice_length _ _ _ hb1])]
      exact hval
    · rw [hstate]
      apply extranonceOfInner_val
      rw [spliceIncrement_length x.inner _ _ a6 hb1]
      exact a8
  · intro hreq hall
    have hnot : ¬ req > x.range2.2 - x.range2.1 := not_lt.mpr hreq
    have hfalse : (spliceIncrement x.inner x.range1.1 x.range1.2).1 = false := by
      show (increment_bytes_be (slice x.inner x.range1.1 x.range1.2)).1 = false
      rw [increment_bytes_be_of_max _ hall]
    show (ExtendedExtranonce.next_extended x req).2 = none
    unfold ExtendedExtranonce.next_extended
    rw [if_neg hnot]
    show (if (spliceIncrement x.inner x.range1.1 x.range1.2).1 then
        some (extranonceOfInner (spliceIncrement x.inner x.range1.1 x.range1.2).2)
      else none) = none
    rw [hfalse]
    simp

theorem next_extended_correct_witness :
    (ExtendedExtranonce.mk (List.replicate 32 0) (0, 0) (0, 16) (16, 32)).next_extended 17 =
      (⟨List.replicate 32 0, (0, 0), (0, 16), (16, 32)⟩, none) :=
  (next_extended_correct ⟨List.replicate 32 0, (0, 0), (0, 16), (16, 32)⟩ 17
    (by decide) (by decide)).1 (by decide)

end Sv2
